import Mathlib

/-!
Shallow embedding of `apps/src/lib/node/ledger/protocol/transactions/ethereum_events/eth_msgs.rs`
(the attestation-aggregation data model) together with the merge/tally
algorithm it supports.

Modelling choices:
* `Address`, `BlockHeight` are opaque identities / heights: modelled as `ℕ`.
* `EthereumEvent` is an opaque, totally ordered payload: modelled as `ℕ`.
* Rust's `BTreeSet` is modelled as a strictly-sorted `List` (the canonical
  sorted representation a `BTreeSet` maintains), so Lean structural equality
  coincides with `BTreeSet` equality in Rust.
* `FractionalVotingPower` (from the namada core crate, not in this fragment)
  is modelled from the spec as an exact rational in `[0, 1]`.
-/

abbrev Address : Type := ℕ

abbrev BlockHeight : Type := ℕ

abbrev EthereumEvent : Type := ℕ

/-- Strict comparison for addresses, mirroring `Ord` on the address type. -/
def ltN (a b : ℕ) : Bool := decide (a < b)

/-- Strict lexicographic comparison on `(Address, BlockHeight)` pairs,
mirroring the derived tuple `Ord` in Rust. -/
def ltPair (x y : ℕ × ℕ) : Bool :=
  decide (x.1 < y.1) || (decide (x.1 = y.1) && decide (x.2 < y.2))

/-- The axioms a strict comparison must satisfy for sorted-list sets to be
canonical: asymmetry, transitivity and connexity. -/
structure StrictCmp {α : Type} (lt : α → α → Bool) : Prop where
  asymm : ∀ a b, lt a b = true → lt b a = false
  trans : ∀ a b c, lt a b = true → lt b c = true → lt a c = true
  conn : ∀ a b, lt a b = false → lt b a = false → a = b

theorem ltN_iff (a b : ℕ) : ltN a b = true ↔ a < b := by
  simp [ltN]

theorem ltPair_iff (x y : ℕ × ℕ) :
    ltPair x y = true ↔ x.1 < y.1 ∨ (x.1 = y.1 ∧ x.2 < y.2) := by
  simp [ltPair, Bool.or_eq_true, Bool.and_eq_true]

theorem ltPair_mk_iff (a1 a2 b1 b2 : ℕ) :
    ltPair (a1, a2) (b1, b2) = true ↔ a1 < b1 ∨ (a1 = b1 ∧ a2 < b2) := by
  simp [ltPair, Bool.or_eq_true, Bool.and_eq_true]

theorem strictCmp_ltN : StrictCmp ltN := by
  constructor
  · intro a b h
    rw [ltN_iff] at h
    cases hba : ltN b a
    · rfl
    · rw [ltN_iff] at hba
      omega
  · intro a b c h1 h2
    rw [ltN_iff] at *
    omega
  · intro a b h1 h2
    have n1 : ¬ a < b := by
      intro hcon
      rw [← ltN_iff] at hcon
      rw [hcon] at h1
      cases h1
    have n2 : ¬ b < a := by
      intro hcon
      rw [← ltN_iff] at hcon
      rw [hcon] at h2
      cases h2
    omega

theorem strictCmp_ltPair : StrictCmp ltPair := by
  constructor
  · rintro ⟨a1, a2⟩ ⟨b1, b2⟩ h
    rw [ltPair_mk_iff] at h
    cases hba : ltPair (b1, b2) (a1, a2)
    · rfl
    · rw [ltPair_mk_iff] at hba
      omega
  · rintro ⟨a1, a2⟩ ⟨b1, b2⟩ ⟨c1, c2⟩ h1 h2
    rw [ltPair_mk_iff] at *
    omega
  · rintro ⟨a1, a2⟩ ⟨b1, b2⟩ h1 h2
    have n1 : ¬ (a1 < b1 ∨ (a1 = b1 ∧ a2 < b2)) := by
      intro hcon
      rw [← ltPair_mk_iff] at hcon
      rw [hcon] at h1
      cases h1
    have n2 : ¬ (b1 < a1 ∨ (b1 = a1 ∧ b2 < a2)) := by
      intro hcon
      rw [← ltPair_mk_iff] at hcon
      rw [hcon] at h2
      cases h2
    have n1' : ¬ a1 < b1 := fun h => n1 (Or.inl h)
    have n2' : ¬ b1 < a1 := fun h => n2 (Or.inl h)
    have e1 : a1 = b1 := by omega
    have n3 : ¬ a2 < b2 := fun h => n1 (Or.inr ⟨e1, h⟩)
    have n4 : ¬ b2 < a2 := fun h => n2 (Or.inr ⟨e1.symm, h⟩)
    have e2 : a2 = b2 := by omega
    rw [e1, e2]

theorem StrictCmp.irrefl {α : Type} {lt : α → α → Bool}
    (hc : StrictCmp lt) (a : α) : lt a a = false := by
  cases h : lt a a
  · rfl
  · exact (h.symm.trans (hc.asymm a a h))

/-- Strict sortedness of a list: every earlier element is `lt` every later
element.  This is the invariant a Rust `BTreeSet` maintains; it implies
`Nodup`. -/
def SortedLt {α : Type} (lt : α → α → Bool) (l : List α) : Prop :=
  l.Pairwise (fun x y => lt x y = true)

theorem sortedLt_nil {α : Type} (lt : α → α → Bool) : SortedLt lt [] :=
  List.Pairwise.nil

theorem sortedLt_cons {α : Type} {lt : α → α → Bool} {a : α} {l : List α} :
    SortedLt lt (a :: l) ↔ (∀ x ∈ l, lt a x = true) ∧ SortedLt lt l :=
  List.pairwise_cons

/-- Insert into a strictly sorted list, skipping the element if already
present — the model of `BTreeSet::insert`. -/
def insertS {α : Type} [DecidableEq α] (lt : α → α → Bool) (a : α) :
    List α → List α
  | [] => [a]
  | b :: t =>
    if lt a b then a :: b :: t
    else if a = b then b :: t
    else b :: insertS lt a t

/-- Insert every element of `xs` into the sorted list `l`
(the model of `collect`-ing an iterator into a `BTreeSet`). -/
def insertAllS {α : Type} [DecidableEq α] (lt : α → α → Bool)
    (xs : List α) (l : List α) : List α :=
  xs.foldl (fun acc x => insertS lt x acc) l

theorem mem_insertS {α : Type} [DecidableEq α] (lt : α → α → Bool)
    (a x : α) (l : List α) : x ∈ insertS lt a l ↔ x = a ∨ x ∈ l := by
  induction l with
  | nil => simp [insertS]
  | cons b t ih =>
    simp only [insertS]
    by_cases h1 : lt a b = true
    · rw [if_pos h1]
      simp only [List.mem_cons]
    · rw [if_neg h1]
      by_cases h2 : a = b
      · subst h2
        rw [if_pos rfl]
        simp only [List.mem_cons]
        tauto
      · rw [if_neg h2]
        simp only [List.mem_cons, ih]
        tauto

theorem sortedLt_insertS {α : Type} [DecidableEq α] {lt : α → α → Bool}
    (hc : StrictCmp lt) (a : α) {l : List α} (hl : SortedLt lt l) :
    SortedLt lt (insertS lt a l) := by
  induction l with
  | nil =>
    simp only [insertS, SortedLt]
    simp
  | cons b t ih =>
    rw [sortedLt_cons] at hl
    simp only [insertS]
    by_cases h1 : lt a b = true
    · rw [if_pos h1, sortedLt_cons]
      constructor
      · intro x hx
        rcases List.mem_cons.mp hx with rfl | hx
        · exact h1
        · exact hc.trans a b x h1 (hl.1 x hx)
      · rw [sortedLt_cons]
        exact hl
    · rw [if_neg h1]
      by_cases h2 : a = b
      · subst h2
        rw [if_pos rfl, sortedLt_cons]
        exact hl
      · rw [if_neg h2, sortedLt_cons]
        constructor
        · intro x hx
          rcases (mem_insertS lt a x t).mp hx with rfl | hx
          · cases hba : lt b x
            · exact absurd (hc.conn x b (by simpa using h1) hba) h2
            · rfl
          · exact hl.1 x hx
        · exact ih hl.2

theorem insertS_of_mem {α : Type} [DecidableEq α] {lt : α → α → Bool}
    (hc : StrictCmp lt) {a : α} {l : List α} (hl : SortedLt lt l)
    (ha : a ∈ l) : insertS lt a l = l := by
  induction l with
  | nil => simp at ha
  | cons b t ih =>
    rw [sortedLt_cons] at hl
    rcases List.mem_cons.mp ha with rfl | ha
    · simp [insertS, hc.irrefl a]
    · have hba : lt b a = true := hl.1 a ha
      have hab : lt a b = false := hc.asymm b a hba
      have hne : a ≠ b := by
        rintro rfl
        rw [hc.irrefl a] at hba
        cases hba
      simp only [insertS]
      rw [if_neg (by simp [hab]), if_neg hne, ih hl.2 ha]

theorem nodup_of_sortedLt {α : Type} {lt : α → α → Bool}
    (hc : StrictCmp lt) {l : List α} (hl : SortedLt lt l) : l.Nodup := by
  refine List.Pairwise.imp ?_ hl
  intro a b h
  rintro rfl
  rw [hc.irrefl a] at h
  cases h

theorem sortedLt_ext {α : Type} {lt : α → α → Bool} (hc : StrictCmp lt) :
    ∀ {l l' : List α}, SortedLt lt l → SortedLt lt l' →
      (∀ x, x ∈ l ↔ x ∈ l') → l = l' := by
  intro l
  induction l with
  | nil =>
    intro l' _ _ hm
    cases l' with
    | nil => rfl
    | cons b t' =>
      have := (hm b).mpr (List.mem_cons_self b t')
      simp at this
  | cons a t ih =>
    intro l' hl hl' hm
    cases l' with
    | nil =>
      have := (hm a).mp (List.mem_cons_self a t)
      simp at this
    | cons b t' =>
      rw [sortedLt_cons] at hl hl'
      have hab : a = b := by
        by_contra hne
        have ha' : a ∈ t' := by
          rcases List.mem_cons.mp ((hm a).mp (List.mem_cons_self a t)) with
            h | h
          · exact absurd h hne
          · exact h
        have hb' : b ∈ t := by
          rcases List.mem_cons.mp ((hm b).mpr (List.mem_cons_self b t')) with
            h | h
          · exact absurd h.symm hne
          · exact h
        have h1 : lt a b = true := hl.1 b hb'
        have h2 : lt b a = true := hl'.1 a ha'
        rw [hc.asymm a b h1] at h2
        cases h2
      subst hab
      have htails : ∀ x, x ∈ t ↔ x ∈ t' := by
        intro x
        have hxa : x ∈ t → x ≠ a := by
          intro hx
          rintro rfl
          have hcon := hl.1 x hx
          rw [hc.irrefl x] at hcon
          cases hcon
        have hxa' : x ∈ t' → x ≠ a := by
          intro hx
          rintro rfl
          have hcon := hl'.1 x hx
          rw [hc.irrefl x] at hcon
          cases hcon
        constructor
        · intro hx
          rcases List.mem_cons.mp ((hm x).mp (List.mem_cons.mpr (Or.inr hx)))
            with heq | h
          · exact absurd heq (hxa hx)
          · exact h
        · intro hx
          rcases List.mem_cons.mp ((hm x).mpr (List.mem_cons.mpr (Or.inr hx)))
            with heq | h
          · exact absurd heq (hxa' hx)
          · exact h
      rw [ih hl.2 hl'.2 htails]

theorem mem_insertAllS {α : Type} [DecidableEq α] (lt : α → α → Bool)
    (xs : List α) (l : List α) (x : α) :
    x ∈ insertAllS lt xs l ↔ x ∈ xs ∨ x ∈ l := by
  induction xs generalizing l with
  | nil => simp [insertAllS]
  | cons y ys ih =>
    simp only [insertAllS, List.foldl_cons] at *
    rw [ih (insertS lt y l), mem_insertS]
    simp only [List.mem_cons]
    tauto

theorem sortedLt_insertAllS {α : Type} [DecidableEq α] {lt : α → α → Bool}
    (hc : StrictCmp lt) (xs : List α) {l : List α} (hl : SortedLt lt l) :
    SortedLt lt (insertAllS lt xs l) := by
  induction xs generalizing l with
  | nil => exact hl
  | cons y ys ih =>
    simp only [insertAllS, List.foldl_cons] at *
    exact ih (sortedLt_insertS hc y hl)

theorem insertAllS_self {α : Type} [DecidableEq α] {lt : α → α → Bool}
    (hc : StrictCmp lt) {l : List α} (hl : SortedLt lt l) :
    insertAllS lt l [] = l := by
  refine sortedLt_ext hc (sortedLt_insertAllS hc l (sortedLt_nil lt)) hl ?_
  intro x
  rw [mem_insertAllS]
  simp

theorem length_le_insertS {α : Type} [DecidableEq α] (lt : α → α → Bool)
    (a : α) (l : List α) : l.length ≤ (insertS lt a l).length := by
  induction l with
  | nil => simp [insertS]
  | cons b t ih =>
    simp only [insertS]
    by_cases h1 : lt a b = true
    · rw [if_pos h1]
      simp
    · rw [if_neg h1]
      by_cases h2 : a = b
      · rw [if_pos h2]
      · rw [if_neg h2]
        simpa using ih

theorem length_le_insertAllS {α : Type} [DecidableEq α] (lt : α → α → Bool)
    (xs : List α) (l : List α) : l.length ≤ (insertAllS lt xs l).length := by
  induction xs generalizing l with
  | nil => simp [insertAllS]
  | cons y ys ih =>
    simp only [insertAllS, List.foldl_cons] at *
    exact le_trans (length_le_insertS lt y l) (ih (insertS lt y l))

theorem sortedLt_filter {α : Type} {lt : α → α → Bool} (p : α → Bool)
    {l : List α} (hl : SortedLt lt l) : SortedLt lt (l.filter p) :=
  List.Pairwise.filter p hl

/-- Modelled from the spec: `FractionalVotingPower` (defined in the namada
core crate, not in this source fragment) — "weighted voting power, expressed
as a fraction of total active stake/power", "an exact fraction in [0, 1]".
Modelled as an exact rational number carrying the `[0, 1]` bound. -/
abbrev FractionalVotingPower : Type := {q : ℚ // 0 ≤ q ∧ q ≤ 1}

/-- The sorted-list model of `BTreeSet<(Address, BlockHeight)>`. -/
abbrev PairSet : Type := {l : List (Address × BlockHeight) // SortedLt ltPair l}

/-- The sorted-list model of `BTreeSet<Address>`. -/
abbrev AddrSet : Type := {l : List Address // SortedLt ltN l}

/-- `EthMsgUpdate` from `eth_msgs.rs`: an Ethereum event being seen by some
validators — the Attestation Delta of the spec. -/
structure EthMsgUpdate where
  body : EthereumEvent
  seen_by : PairSet
deriving DecidableEq

/-- `EthMsg` from `eth_msgs.rs`: an event stored under `eth_msgs` — the Event
Tally Record of the spec.  The Rust `voting_power` field has type
`FractionalVotingPower`; it is modelled here by the underlying exact
rational (its `[0, 1]` range is proved for reachable records, not assumed). -/
structure EthMsg where
  body : EthereumEvent
  voting_power : ℚ
  seen_by : AddrSet
  seen : Bool
deriving DecidableEq

/-- `MultiSignedEthEvent` (from the namada core crate): an event together
with the validators that signed it.  Its `signers` field is a `HashSet`,
modelled as a list in arbitrary iteration order, possibly with the same pair
listed at most once in Rust but unrestricted here (weaker input, stronger
theorem). -/
structure MultiSignedEthEvent where
  event : EthereumEvent
  signers : List (Address × BlockHeight)

/-- `impl From<MultiSignedEthEvent> for EthMsgUpdate` from `eth_msgs.rs`:
keeps the event as `body` and collects the signers into a `BTreeSet`. -/
def EthMsgUpdate.fromMultiSigned (m : MultiSignedEthEvent) : EthMsgUpdate :=
  { body := m.event
    seen_by :=
      ⟨insertAllS ltPair m.signers [],
        sortedLt_insertAllS strictCmp_ltPair m.signers (sortedLt_nil ltPair)⟩ }

/-- Modelled from the spec: the error taxonomy of the merge boundary (§7). -/
inductive MergeError where
  | EventMismatch
  | EmptyAttestersRejected
  | UnknownValidatorWeight
deriving DecidableEq

/-- Modelled from the spec: `merge(delta) -> (updated_record, power_added)`. -/
structure MergeResult where
  record : EthMsg
  power_added : ℚ
deriving DecidableEq

/-- The sorted list of distinct validator identities appearing in the delta
that are not already in the record's `seen_by` — "the subset of
`delta.attesters`' validator identities not already in `seen_by`". -/
def newValidators (r : EthMsg) (d : EthMsgUpdate) : List Address :=
  (insertAllS ltN (d.seen_by.val.map Prod.fst) []).filter
    (fun v => ! decide (v ∈ r.seen_by.val))

/-- Look up and sum the weights of a list of validators; fails if the weight
provider cannot resolve any of them. -/
def sumWeights (w : Address → Option FractionalVotingPower) :
    List Address → Option ℚ
  | [] => some 0
  | v :: t =>
    match w v, sumWeights w t with
    | some p, some s => some (p.val + s)
    | _, _ => none

/-- Modelled from the spec (§4.2, §7): the merge/tally algorithm folding an
Attestation Delta (`EthMsgUpdate`) into an Event Tally Record (`EthMsg`).
The weight provider is a fixed lookup per validator identity, per the spec's
determinism clause ("for a fixed sequence of weight lookups"). -/
def merge (quorum : ℚ) (w : Address → Option FractionalVotingPower)
    (r : EthMsg) (d : EthMsgUpdate) : Except MergeError MergeResult :=
  if d.body ≠ r.body then Except.error MergeError.EventMismatch
  else if d.seen_by.val = [] then Except.error MergeError.EmptyAttestersRejected
  else
    match sumWeights w (newValidators r d) with
    | none => Except.error MergeError.UnknownValidatorWeight
    | some p =>
      Except.ok
        { record :=
            { body := r.body
              voting_power := r.voting_power + p
              seen_by :=
                ⟨insertAllS ltN (newValidators r d) r.seen_by.val,
                  sortedLt_insertAllS strictCmp_ltN (newValidators r d)
                    r.seen_by.prop⟩
              seen := r.seen || decide (quorum ≤ r.voting_power + p) }
          power_added := p }

/-- Fold a sequence of deltas into a record, stopping at the first error. -/
def mergeList (quorum : ℚ) (w : Address → Option FractionalVotingPower) :
    EthMsg → List EthMsgUpdate → Except MergeError EthMsg
  | r, [] => Except.ok r
  | r, d :: t =>
    match merge quorum w r d with
    | Except.error e => Except.error e
    | Except.ok s => mergeList quorum w s.record t

/-- The initial (absent) record for an event: `Unseen(power = 0)` in the
spec's state machine. -/
def initMsg (e : EthereumEvent) : EthMsg :=
  { body := e
    voting_power := 0
    seen_by := ⟨[], sortedLt_nil ltN⟩
    seen := false }

/-- The rational weight a fixed provider assigns to a validator
(zero when unresolvable; only used where resolvability is known). -/
def wq (w : Address → Option FractionalVotingPower) (v : Address) : ℚ :=
  match w v with
  | some p => p.val
  | none => 0

theorem wq_nonneg (w : Address → Option FractionalVotingPower) (v : Address) :
    0 ≤ wq w v := by
  unfold wq
  cases h : w v with
  | none => exact le_refl 0
  | some p => exact p.prop.1

theorem sortedLt_newValidators (r : EthMsg) (d : EthMsgUpdate) :
    SortedLt ltN (newValidators r d) :=
  sortedLt_filter _
    (sortedLt_insertAllS strictCmp_ltN _ (sortedLt_nil ltN))

theorem nodup_newValidators (r : EthMsg) (d : EthMsgUpdate) :
    (newValidators r d).Nodup :=
  nodup_of_sortedLt strictCmp_ltN (sortedLt_newValidators r d)

theorem mem_newValidators (r : EthMsg) (d : EthMsgUpdate) (v : Address) :
    v ∈ newValidators r d ↔
      (∃ h, (v, h) ∈ d.seen_by.val) ∧ ¬ v ∈ r.seen_by.val := by
  unfold newValidators
  rw [List.mem_filter, mem_insertAllS]
  constructor
  · rintro ⟨hmem, hf⟩
    rcases hmem with hmem | hnil
    · rcases List.mem_map.mp hmem with ⟨⟨a, hh⟩, ha, hfa⟩
      refine ⟨⟨hh, ?_⟩, ?_⟩
      · cases hfa
        exact ha
      · simpa using hf
    · simp at hnil
  · rintro ⟨⟨hh, hm⟩, hnot⟩
    exact ⟨Or.inl (List.mem_map.mpr ⟨(v, hh), hm, rfl⟩), by simpa using hnot⟩

/-- The set of validator identities attesting in a delta. -/
def attestersOf (d : EthMsgUpdate) : Finset Address :=
  (d.seen_by.val.map Prod.fst).toFinset

theorem mem_attestersOf (d : EthMsgUpdate) (v : Address) :
    v ∈ attestersOf d ↔ ∃ h, (v, h) ∈ d.seen_by.val := by
  unfold attestersOf
  rw [List.mem_toFinset]
  constructor
  · intro hmem
    rcases List.mem_map.mp hmem with ⟨⟨a, hh⟩, ha, hfa⟩
    cases hfa
    exact ⟨hh, ha⟩
  · rintro ⟨hh, hm⟩
    exact List.mem_map.mpr ⟨(v, hh), hm, rfl⟩

theorem toFinset_newValidators (r : EthMsg) (d : EthMsgUpdate) :
    (newValidators r d).toFinset =
      attestersOf d \ r.seen_by.val.toFinset := by
  ext v
  rw [List.mem_toFinset, mem_newValidators, Finset.mem_sdiff,
    mem_attestersOf, List.mem_toFinset]

theorem sumWeights_eq_sum (w : Address → Option FractionalVotingPower) :
    ∀ l : List Address, (∀ v ∈ l, (w v).isSome = true) →
      sumWeights w l = some ((l.map (wq w)).sum) := by
  intro l
  induction l with
  | nil => intro _; simp [sumWeights]
  | cons v t ih =>
    intro hall
    have hv : (w v).isSome = true := hall v (List.mem_cons_self v t)
    rcases Option.isSome_iff_exists.mp hv with ⟨p, hp⟩
    have ht := ih (fun x hx => hall x (List.mem_cons.mpr (Or.inr hx)))
    simp only [sumWeights, hp, ht, List.map_cons, List.sum_cons]
    have : wq w v = p.val := by
      unfold wq
      rw [hp]
    rw [this]

theorem sumWeights_eq_none_iff (w : Address → Option FractionalVotingPower)
    (l : List Address) :
    sumWeights w l = none ↔ ∃ v ∈ l, w v = none := by
  induction l with
  | nil => simp [sumWeights]
  | cons v t ih =>
    simp only [sumWeights]
    cases hv : w v with
    | none => simp [hv]
    | some p =>
      cases ht : sumWeights w t with
      | none =>
        simp only [List.mem_cons]
        constructor
        · intro _
          rcases ih.mp ht with ⟨x, hx, hxn⟩
          exact ⟨x, Or.inr hx, hxn⟩
        · intro _
          trivial
      | some s =>
        simp only [List.mem_cons]
        constructor
        · intro hcon
          cases hcon
        · rintro ⟨x, hx | hx, hxn⟩
          · subst hx
            rw [hv] at hxn
            cases hxn
          · have := ih.mpr ⟨x, hx, hxn⟩
            rw [this] at ht
            cases ht

/-- The record produced by a successful merge adding power `p`. -/
def mergedRecord (quorum : ℚ) (r : EthMsg) (d : EthMsgUpdate) (p : ℚ) :
    EthMsg :=
  { body := r.body
    voting_power := r.voting_power + p
    seen_by :=
      ⟨insertAllS ltN (newValidators r d) r.seen_by.val,
        sortedLt_insertAllS strictCmp_ltN (newValidators r d) r.seen_by.prop⟩
    seen := r.seen || decide (quorum ≤ r.voting_power + p) }

theorem mergedRecord_body (q : ℚ) (r : EthMsg) (d : EthMsgUpdate) (p : ℚ) :
    (mergedRecord q r d p).body = r.body := rfl

theorem mergedRecord_vp (q : ℚ) (r : EthMsg) (d : EthMsgUpdate) (p : ℚ) :
    (mergedRecord q r d p).voting_power = r.voting_power + p := rfl

theorem mergedRecord_seen (q : ℚ) (r : EthMsg) (d : EthMsgUpdate) (p : ℚ) :
    (mergedRecord q r d p).seen =
      (r.seen || decide (q ≤ r.voting_power + p)) := rfl

theorem mergedRecord_seen_by (q : ℚ) (r : EthMsg) (d : EthMsgUpdate) (p : ℚ) :
    (mergedRecord q r d p).seen_by.val =
      insertAllS ltN (newValidators r d) r.seen_by.val := rfl

theorem merge_mismatch {q : ℚ} {w : Address → Option FractionalVotingPower}
    {r : EthMsg} {d : EthMsgUpdate} (hb : d.body ≠ r.body) :
    merge q w r d = Except.error MergeError.EventMismatch := by
  unfold merge
  rw [if_pos hb]

theorem merge_empty {q : ℚ} {w : Address → Option FractionalVotingPower}
    {r : EthMsg} {d : EthMsgUpdate} (hb : d.body = r.body)
    (he : d.seen_by.val = []) :
    merge q w r d = Except.error MergeError.EmptyAttestersRejected := by
  unfold merge
  rw [if_neg (not_not_intro hb), if_pos he]

theorem merge_unknown {q : ℚ} {w : Address → Option FractionalVotingPower}
    {r : EthMsg} {d : EthMsgUpdate} (hb : d.body = r.body)
    (he : d.seen_by.val ≠ [])
    (hn : sumWeights w (newValidators r d) = none) :
    merge q w r d = Except.error MergeError.UnknownValidatorWeight := by
  unfold merge
  rw [if_neg (not_not_intro hb), if_neg he, hn]

theorem merge_ok_intro {q : ℚ} {w : Address → Option FractionalVotingPower}
    {r : EthMsg} {d : EthMsgUpdate} {p : ℚ} (hb : d.body = r.body)
    (he : d.seen_by.val ≠ [])
    (hp : sumWeights w (newValidators r d) = some p) :
    merge q w r d = Except.ok ⟨mergedRecord q r d p, p⟩ := by
  unfold merge
  rw [if_neg (not_not_intro hb), if_neg he, hp]
  rfl

theorem merge_ok_elim {q : ℚ} {w : Address → Option FractionalVotingPower}
    {r : EthMsg} {d : EthMsgUpdate} {s : MergeResult}
    (h : merge q w r d = Except.ok s) :
    d.body = r.body ∧ d.seen_by.val ≠ [] ∧
      ∃ p, sumWeights w (newValidators r d) = some p ∧
        s = ⟨mergedRecord q r d p, p⟩ := by
  by_cases hb : d.body = r.body
  · by_cases he : d.seen_by.val = []
    · rw [merge_empty hb he] at h
      cases h
    · cases hsw : sumWeights w (newValidators r d) with
      | none =>
        rw [merge_unknown hb he hsw] at h
        cases h
      | some p =>
        rw [merge_ok_intro hb he hsw] at h
        exact ⟨hb, he, p, rfl, (Except.ok.inj h).symm⟩
  · rw [merge_mismatch hb] at h
    cases h

theorem mem_merged_seen_by (q : ℚ) (r : EthMsg) (d : EthMsgUpdate) (p : ℚ)
    (v : Address) :
    v ∈ (mergedRecord q r d p).seen_by.val ↔
      v ∈ r.seen_by.val ∨ ∃ h, (v, h) ∈ d.seen_by.val := by
  rw [mergedRecord_seen_by, mem_insertAllS, mem_newValidators]
  constructor
  · rintro (⟨hex, hnot⟩ | hmem)
    · exact Or.inr hex
    · exact Or.inl hmem
  · rintro (hmem | hex)
    · exact Or.inr hmem
    · by_cases hv : v ∈ r.seen_by.val
      · exact Or.inr hv
      · exact Or.inl ⟨hex, hv⟩

/-- All validator identities attesting across a list of deltas. -/
def attestersAll : List EthMsgUpdate → Finset Address
  | [] => ∅
  | d :: t => attestersOf d ∪ attestersAll t

theorem toFinset_merged_seen_by (q : ℚ) (r : EthMsg) (d : EthMsgUpdate)
    (p : ℚ) :
    (mergedRecord q r d p).seen_by.val.toFinset =
      r.seen_by.val.toFinset ∪ attestersOf d := by
  ext v
  rw [List.mem_toFinset, mem_merged_seen_by, Finset.mem_union,
    List.mem_toFinset, mem_attestersOf]

theorem sdiff_union_split (R A L : Finset Address) :
    (A ∪ L) \ R = (A \ R) ∪ (L \ (R ∪ A)) := by
  ext x
  simp only [Finset.mem_sdiff, Finset.mem_union]
  tauto

theorem disjoint_split (R A L : Finset Address) :
    Disjoint (A \ R) (L \ (R ∪ A)) := by
  rw [Finset.disjoint_left]
  intro x hx hx'
  rw [Finset.mem_sdiff] at hx
  rw [Finset.mem_sdiff, Finset.mem_union] at hx'
  exact hx'.2 (Or.inr hx.1)

theorem sumWeights_some_eq {w : Address → Option FractionalVotingPower}
    {l : List Address} {p : ℚ} (hl : l.Nodup)
    (hp : sumWeights w l = some p) :
    p = ∑ v in l.toFinset, wq w v := by
  have hall : ∀ v ∈ l, (w v).isSome = true := by
    intro v hv
    cases hval : w v with
    | none =>
      exfalso
      have hn : sumWeights w l = none :=
        (sumWeights_eq_none_iff w l).mpr ⟨v, hv, hval⟩
      rw [hn] at hp
      cases hp
    | some x => rfl
  rw [sumWeights_eq_sum w l hall] at hp
  have hps := Option.some.inj hp
  rw [← hps, List.sum_toFinset (wq w) hl]

theorem mergeList_nil (q : ℚ) (w : Address → Option FractionalVotingPower)
    (r : EthMsg) : mergeList q w r [] = Except.ok r := rfl

theorem mergeList_cons (q : ℚ) (w : Address → Option FractionalVotingPower)
    (r : EthMsg) (d : EthMsgUpdate) (t : List EthMsgUpdate) :
    mergeList q w r (d :: t) =
      match merge q w r d with
      | Except.error e => Except.error e
      | Except.ok s => mergeList q w s.record t := rfl

theorem mergeList_cons_ok {q : ℚ} {w : Address → Option FractionalVotingPower}
    {r : EthMsg} {d : EthMsgUpdate} {t : List EthMsgUpdate} {s : MergeResult}
    (h : merge q w r d = Except.ok s) :
    mergeList q w r (d :: t) = mergeList q w s.record t := by
  rw [mergeList_cons, h]

theorem mergeList_cons_elim {q : ℚ}
    {w : Address → Option FractionalVotingPower} {r : EthMsg}
    {d : EthMsgUpdate} {t : List EthMsgUpdate} {u : EthMsg}
    (h : mergeList q w r (d :: t) = Except.ok u) :
    ∃ s, merge q w r d = Except.ok s ∧
      mergeList q w s.record t = Except.ok u := by
  cases hm : merge q w r d with
  | error e =>
    rw [mergeList_cons, hm] at h
    cases h
  | ok s =>
    rw [mergeList_cons, hm] at h
    exact ⟨s, rfl, h⟩

/-- The master characterization of a successful fold of deltas: the final
body, membership of `seen_by`, the voting power as a set-sum of weights, and
the `seen` flag, all as functions of the *set* of incoming attestations. -/
theorem mergeList_char {q : ℚ} {w : Address → Option FractionalVotingPower} :
    ∀ {l : List EthMsgUpdate} {r t : EthMsg},
      mergeList q w r l = Except.ok t →
      t.body = r.body ∧
      (∀ v, v ∈ t.seen_by.val ↔ v ∈ r.seen_by.val ∨ v ∈ attestersAll l) ∧
      t.voting_power = r.voting_power +
        ∑ v in attestersAll l \ r.seen_by.val.toFinset, wq w v ∧
      (l = [] → t = r) ∧
      (l ≠ [] → t.seen = (r.seen || decide (q ≤ t.voting_power))) := by
  intro l
  induction l with
  | nil =>
    intro r t h
    rw [mergeList_nil] at h
    have ht : t = r := (Except.ok.inj h).symm
    subst ht
    refine ⟨rfl, ?_, ?_, fun _ => rfl, fun hn => absurd rfl hn⟩
    · intro v
      simp [attestersAll]
    · simp [attestersAll]
  | cons d l ih =>
    intro r t h
    rcases mergeList_cons_elim h with ⟨s, hm, hrest⟩
    rcases merge_ok_elim hm with ⟨hb, hne, p, hp, hs⟩
    subst hs
    have hrest' : mergeList q w (mergedRecord q r d p) l = Except.ok t :=
      hrest
    rcases ih hrest' with ⟨ihb, ihmem, ihvp, ihnil, ihseen⟩
    rw [mergedRecord_vp, toFinset_merged_seen_by] at ihvp
    have hpv : p = ∑ v in attestersOf d \ r.seen_by.val.toFinset, wq w v := by
      have hpe := sumWeights_some_eq (nodup_newValidators r d) hp
      rw [toFinset_newValidators] at hpe
      exact hpe
    have hsplit : attestersAll (d :: l) \ r.seen_by.val.toFinset =
        (attestersOf d \ r.seen_by.val.toFinset) ∪
          (attestersAll l \ (r.seen_by.val.toFinset ∪ attestersOf d)) := by
      show (attestersOf d ∪ attestersAll l) \ r.seen_by.val.toFinset = _
      exact sdiff_union_split _ _ _
    refine ⟨ihb.trans (mergedRecord_body q r d p), ?_, ?_, ?_, ?_⟩
    · intro v
      rw [ihmem v, mem_merged_seen_by]
      show _ ↔ v ∈ r.seen_by.val ∨ v ∈ attestersOf d ∪ attestersAll l
      rw [Finset.mem_union, mem_attestersOf]
      tauto
    · rw [hsplit, Finset.sum_union (disjoint_split _ _ _), ihvp, hpv]
      ring
    · intro hcon
      cases hcon
    · intro _
      by_cases hl : l = []
      · subst hl
        have ht : t = mergedRecord q r d p := ihnil rfl
        subst ht
        rw [mergedRecord_seen, mergedRecord_vp]
      · have hmono : r.voting_power + p ≤ t.voting_power := by
          rw [ihvp]
          have hnn : 0 ≤ ∑ v in attestersAll l \
              (r.seen_by.val.toFinset ∪ attestersOf d), wq w v :=
            Finset.sum_nonneg (fun v _ => wq_nonneg w v)
          linarith
        rw [ihseen hl, mergedRecord_seen]
        cases hd : decide (q ≤ r.voting_power + p) with
        | false => simp [Bool.or_assoc]
        | true =>
          have hc : decide (q ≤ t.voting_power) = true := by
            rw [decide_eq_true_eq] at hd ⊢
            exact le_trans hd hmono
          rw [hc]
          simp

theorem EthMsg.ext4 {a b : EthMsg} (h1 : a.body = b.body)
    (h2 : a.voting_power = b.voting_power) (h3 : a.seen_by = b.seen_by)
    (h4 : a.seen = b.seen) : a = b := by
  cases a
  cases b
  simp_all

theorem mem_attestersAll (l : List EthMsgUpdate) (v : Address) :
    v ∈ attestersAll l ↔ ∃ d ∈ l, v ∈ attestersOf d := by
  induction l with
  | nil => simp [attestersAll]
  | cons d t ih =>
    show v ∈ attestersOf d ∪ attestersAll t ↔ _
    rw [Finset.mem_union, ih]
    simp only [List.mem_cons]
    constructor
    · rintro (hd | ⟨x, hx, hv⟩)
      · exact ⟨d, Or.inl rfl, hd⟩
      · exact ⟨x, Or.inr hx, hv⟩
    · rintro ⟨x, rfl | hx, hv⟩
      · exact Or.inl hv
      · exact Or.inr ⟨x, hx, hv⟩

theorem attestersAll_eq_of_mem_eq {l l' : List EthMsgUpdate}
    (hmm : ∀ d, d ∈ l ↔ d ∈ l') : attestersAll l = attestersAll l' := by
  ext v
  rw [mem_attestersAll, mem_attestersAll]
  constructor
  · rintro ⟨d, hd, hv⟩
    exact ⟨d, (hmm d).mp hd, hv⟩
  · rintro ⟨d, hd, hv⟩
    exact ⟨d, (hmm d).mpr hd, hv⟩

theorem insertAllS_nil {α : Type} [DecidableEq α] (lt : α → α → Bool)
    (l : List α) : insertAllS lt [] l = l := rfl

theorem newValidators_merged_nil (q : ℚ) (r : EthMsg) (d : EthMsgUpdate)
    (p : ℚ) : newValidators (mergedRecord q r d p) d = [] := by
  rw [List.eq_nil_iff_forall_not_mem]
  intro v
  rw [mem_newValidators]
  rintro ⟨⟨hh, hm⟩, hnot⟩
  exact hnot ((mem_merged_seen_by q r d p v).mpr (Or.inr ⟨hh, hm⟩))

theorem mergedRecord_noop {q : ℚ} {m : EthMsg} {d2 : EthMsgUpdate}
    (hnv : newValidators m d2 = [])
    (habs : q ≤ m.voting_power → m.seen = true) :
    mergedRecord q m d2 0 = m := by
  refine EthMsg.ext4 rfl (add_zero _) ?_ ?_
  · refine Subtype.ext ?_
    rw [mergedRecord_seen_by, hnv, insertAllS_nil]
  · rw [mergedRecord_seen]
    cases hd : decide (q ≤ m.voting_power + 0) with
    | false => exact Bool.or_false m.seen
    | true =>
      rw [decide_eq_true_eq, add_zero] at hd
      rw [habs hd]
      rfl

/-- Re-applying a delta that was just merged succeeds, adds zero power and
leaves the record unchanged. -/
theorem merge_idem_aux {q : ℚ} {w : Address → Option FractionalVotingPower}
    {r : EthMsg} {d : EthMsgUpdate} {s : MergeResult}
    (h : merge q w r d = Except.ok s) :
    merge q w s.record d = Except.ok ⟨s.record, 0⟩ := by
  rcases merge_ok_elim h with ⟨hb, hne, p, hp, hs⟩
  subst hs
  show merge q w (mergedRecord q r d p) d = _
  have hb' : d.body = (mergedRecord q r d p).body := hb
  have hz : sumWeights w (newValidators (mergedRecord q r d p) d) =
      some 0 := by
    rw [newValidators_merged_nil]
    rfl
  rw [merge_ok_intro hb' hne hz]
  have hnoop : mergedRecord q (mergedRecord q r d p) d 0 =
      mergedRecord q r d p := by
    refine mergedRecord_noop (newValidators_merged_nil q r d p) ?_
    intro hle
    rw [mergedRecord_seen]
    rw [mergedRecord_vp] at hle
    rw [decide_eq_true hle]
    exact Bool.or_true r.seen
  rw [hnoop]

/-- A successful fold of deltas depends only on the *set* of deltas merged:
order and multiplicity are irrelevant. -/
theorem mergeList_set_indep {q : ℚ}
    {w : Address → Option FractionalVotingPower} {r : EthMsg}
    {l l' : List EthMsgUpdate} {t t' : EthMsg}
    (hmm : ∀ d, d ∈ l ↔ d ∈ l')
    (h : mergeList q w r l = Except.ok t)
    (h' : mergeList q w r l' = Except.ok t') : t = t' := by
  have hA : attestersAll l = attestersAll l' := attestersAll_eq_of_mem_eq hmm
  rcases mergeList_char h with ⟨hb, hmem, hvp, hn, hs⟩
  rcases mergeList_char h' with ⟨hb', hmem', hvp', hn', hs'⟩
  by_cases hl : l = []
  · subst hl
    have hl' : l' = [] := by
      rw [List.eq_nil_iff_forall_not_mem]
      intro d hd
      exact absurd ((hmm d).mpr hd) (List.not_mem_nil d)
    rw [hn rfl, hn' hl']
  · have hl' : l' ≠ [] := by
      intro hcon
      subst hcon
      rcases List.exists_mem_of_ne_nil l hl with ⟨d, hd⟩
      exact absurd ((hmm d).mp hd) (List.not_mem_nil d)
    have hveq : t.voting_power = t'.voting_power := by
      rw [hvp, hvp', hA]
    refine EthMsg.ext4 (hb.trans hb'.symm) hveq ?_ ?_
    · refine Subtype.ext ?_
      refine sortedLt_ext strictCmp_ltN t.seen_by.prop t'.seen_by.prop ?_
      intro v
      rw [hmem v, hmem' v, hA]
    · rw [hs hl, hs' hl', hveq]

theorem merge_mono {q : ℚ} {w : Address → Option FractionalVotingPower}
    {r : EthMsg} {d : EthMsgUpdate} {s : MergeResult}
    (h : merge q w r d = Except.ok s) :
    r.voting_power ≤ s.record.voting_power ∧
      r.seen_by.val.length ≤ s.record.seen_by.val.length := by
  rcases merge_ok_elim h with ⟨hb, hne, p, hp, hs⟩
  subst hs
  constructor
  · show r.voting_power ≤ (mergedRecord q r d p).voting_power
    rw [mergedRecord_vp]
    have hpv := sumWeights_some_eq (nodup_newValidators r d) hp
    have hpn : 0 ≤ p := by
      rw [hpv]
      exact Finset.sum_nonneg fun v _ => wq_nonneg w v
    linarith
  · show r.seen_by.val.length ≤ (mergedRecord q r d p).seen_by.val.length
    rw [mergedRecord_seen_by]
    exact length_le_insertAllS ltN _ _

theorem mergeList_mono {q : ℚ} {w : Address → Option FractionalVotingPower} :
    ∀ {l : List EthMsgUpdate} {r t : EthMsg},
      mergeList q w r l = Except.ok t →
      r.voting_power ≤ t.voting_power ∧
        r.seen_by.val.length ≤ t.seen_by.val.length := by
  intro l
  induction l with
  | nil =>
    intro r t h
    rw [mergeList_nil] at h
    have ht : t = r := (Except.ok.inj h).symm
    subst ht
    exact ⟨le_refl _, le_refl _⟩
  | cons d l ih =>
    intro r t h
    rcases mergeList_cons_elim h with ⟨s, hm, hrest⟩
    have h1 := merge_mono hm
    have h2 := ih hrest
    exact ⟨le_trans h1.1 h2.1, le_trans h1.2 h2.2⟩

theorem mergeList_init_char {q : ℚ}
    {w : Address → Option FractionalVotingPower} {e : EthereumEvent}
    {l : List EthMsgUpdate} {t : EthMsg}
    (h : mergeList q w (initMsg e) l = Except.ok t) :
    t.body = e ∧
    (∀ v, v ∈ t.seen_by.val ↔ ∃ d ∈ l, ∃ hh, (v, hh) ∈ d.seen_by.val) ∧
    t.voting_power = ∑ v in attestersAll l, wq w v ∧
    (l = [] → t = initMsg e) ∧
    (l ≠ [] → t.seen = decide (q ≤ t.voting_power)) := by
  rcases mergeList_char h with ⟨hb, hmem, hvp, hn, hs⟩
  refine ⟨hb, ?_, ?_, hn, ?_⟩
  · intro v
    rw [hmem v, mem_attestersAll]
    have hnil : ¬ v ∈ (initMsg e).seen_by.val := List.not_mem_nil v
    constructor
    · rintro (hmem0 | ⟨d, hd, hv⟩)
      · exact absurd hmem0 hnil
      · rcases (mem_attestersOf d v).mp hv with ⟨hh, hm⟩
        exact ⟨d, hd, hh, hm⟩
    · rintro ⟨d, hd, hh, hm⟩
      exact Or.inr ⟨d, hd, (mem_attestersOf d v).mpr ⟨hh, hm⟩⟩
  · rw [hvp]
    show (0 : ℚ) + _ = _
    rw [zero_add]
    congr 1
    show attestersAll l \ ([] : List Address).toFinset = attestersAll l
    rw [List.toFinset_nil, Finset.sdiff_empty]
  · intro hl
    rw [hs hl]
    show (false || _) = _
    rw [Bool.false_or]

/-- C1: merging is commutative on the resulting record
(`merge(merge(R, D1), D2)` and `merge(merge(R, D2), D1)` yield the same
record), idempotent (`merge(merge(R, D).record, D).record =
merge(R, D).record`, indeed re-merging adds zero power), and for a fixed
weight-lookup function the result of folding a set of deltas is independent
of application order and of how many times each delta is repeated. -/
theorem claim_c1_merge_comm_idem_deterministic (q : ℚ)
    (w : Address → Option FractionalVotingPower) :
    (∀ (r : EthMsg) (d1 d2 : EthMsgUpdate) (s1 t1 s2 t2 : MergeResult),
      merge q w r d1 = Except.ok s1 →
      merge q w s1.record d2 = Except.ok t1 →
      merge q w r d2 = Except.ok s2 →
      merge q w s2.record d1 = Except.ok t2 →
      t1.record = t2.record) ∧
    (∀ (r : EthMsg) (d : EthMsgUpdate) (s : MergeResult),
      merge q w r d = Except.ok s →
      merge q w s.record d = Except.ok ⟨s.record, 0⟩) ∧
    (∀ (r : EthMsg) (l l' : List EthMsgUpdate) (t t' : EthMsg),
      (∀ d, d ∈ l ↔ d ∈ l') →
      mergeList q w r l = Except.ok t →
      mergeList q w r l' = Except.ok t' → t = t') := by
  refine ⟨?_, ?_, ?_⟩
  · intro r d1 d2 s1 t1 s2 t2 h1 h2 h3 h4
    have hL1 : mergeList q w r [d1, d2] = Except.ok t1.record := by
      rw [mergeList_cons_ok h1, mergeList_cons_ok h2, mergeList_nil]
    have hL2 : mergeList q w r [d2, d1] = Except.ok t2.record := by
      rw [mergeList_cons_ok h3, mergeList_cons_ok h4, mergeList_nil]
    refine mergeList_set_indep ?_ hL1 hL2
    intro d
    simp only [List.mem_cons, List.not_mem_nil, or_false]
    tauto
  · intro r d s h
    exact merge_idem_aux h
  · intro r l l' t t' hmm h h'
    exact mergeList_set_indep hmm h h'

/-- C2: starting from the initial record (`voting_power = 0`,
`seen = false`), the `seen` flag of any reachable record is true exactly when
the cumulative voting power has reached the quorum threshold (so it is false
below quorum and set by the first merge that reaches it), and any single
merge preserves `seen = true` (one-way latch). -/
theorem claim_c2_seen_latch_threshold (q : ℚ)
    (w : Address → Option FractionalVotingPower) (e : EthereumEvent) :
    (∀ (r : EthMsg) (d : EthMsgUpdate) (s : MergeResult),
      merge q w r d = Except.ok s → r.seen = true →
      s.record.seen = true) ∧
    (0 < q → ∀ (l : List EthMsgUpdate) (t : EthMsg),
      mergeList q w (initMsg e) l = Except.ok t →
      (t.seen = true ↔ q ≤ t.voting_power)) := by
  constructor
  · intro r d s h hseen
    rcases merge_ok_elim h with ⟨hb, hne, p, hp, hs⟩
    subst hs
    show (mergedRecord q r d p).seen = true
    rw [mergedRecord_seen, hseen]
    rfl
  · intro hq l t h
    rcases mergeList_init_char h with ⟨_, _, _, hn, hs⟩
    by_cases hl : l = []
    · subst hl
      have ht : t = initMsg e := hn rfl
      subst ht
      show false = true ↔ q ≤ 0
      constructor
      · intro hcon
        cases hcon
      · intro hcon
        linarith
    · rw [hs hl]
      rw [decide_eq_true_eq]

/-- C3: for a record built from the initial state, each distinct attesting
validator contributes its weight exactly once to `voting_power` (the power is
a sum over the *set* of attester identities), `seen_by` contains exactly the
validator identities mentioned in the folded deltas (heights dropped), and it
never contains duplicates even if a validator attested at several heights. -/
theorem claim_c3_exactly_once_counting (q : ℚ)
    (w : Address → Option FractionalVotingPower) (e : EthereumEvent) :
    ∀ (l : List EthMsgUpdate) (t : EthMsg),
      mergeList q w (initMsg e) l = Except.ok t →
      t.voting_power = ∑ v in attestersAll l, wq w v ∧
      (∀ v, v ∈ t.seen_by.val ↔ ∃ d ∈ l, ∃ hh, (v, hh) ∈ d.seen_by.val) ∧
      t.seen_by.val.Nodup := by
  intro l t h
  rcases mergeList_init_char h with ⟨_, hmem, hvp, _, _⟩
  exact ⟨hvp, hmem, nodup_of_sortedLt strictCmp_ltN t.seen_by.prop⟩

/-- C4: voting power and the size of `seen_by` are non-decreasing under any
single merge and across any sequence of merges, and the voting power of a
record built from the initial state equals the sum of each distinct
attester's weight. -/
theorem claim_c4_monotonicity (q : ℚ)
    (w : Address → Option FractionalVotingPower) :
    (∀ (r : EthMsg) (d : EthMsgUpdate) (s : MergeResult),
      merge q w r d = Except.ok s →
      r.voting_power ≤ s.record.voting_power ∧
        r.seen_by.val.length ≤ s.record.seen_by.val.length) ∧
    (∀ (r : EthMsg) (l : List EthMsgUpdate) (t : EthMsg),
      mergeList q w r l = Except.ok t →
      r.voting_power ≤ t.voting_power ∧
        r.seen_by.val.length ≤ t.seen_by.val.length) ∧
    (∀ (e : EthereumEvent) (l : List EthMsgUpdate) (t : EthMsg),
      mergeList q w (initMsg e) l = Except.ok t →
      t.voting_power = ∑ v in attestersAll l, wq w v) := by
  refine ⟨?_, ?_, ?_⟩
  · intro r d s h
    exact merge_mono h
  · intro r l t h
    exact mergeList_mono h
  · intro e l t h
    exact (mergeList_init_char h).2.2.1

/-- C5: the merge is all-or-nothing with a typed error taxonomy — it returns
`EventMismatch` exactly on a delta for the wrong event,
`EmptyAttestersRejected` exactly on a delta with no attesters,
`UnknownValidatorWeight` exactly when some new attester's weight is
unresolvable, and on success every new attester has a resolvable weight and
is folded into `seen_by` (in this pure embedding a failed merge returns only
the error, so the input record is untouched by construction). -/
theorem claim_c5_all_or_nothing (q : ℚ)
    (w : Address → Option FractionalVotingPower) :
    (∀ (r : EthMsg) (d : EthMsgUpdate),
      merge q w r d = Except.error MergeError.EventMismatch ↔
        d.body ≠ r.body) ∧
    (∀ (r : EthMsg) (d : EthMsgUpdate),
      merge q w r d = Except.error MergeError.EmptyAttestersRejected ↔
        d.body = r.body ∧ d.seen_by.val = []) ∧
    (∀ (r : EthMsg) (d : EthMsgUpdate),
      merge q w r d = Except.error MergeError.UnknownValidatorWeight ↔
        d.body = r.body ∧ d.seen_by.val ≠ [] ∧
          ∃ v ∈ newValidators r d, w v = none) ∧
    (∀ (r : EthMsg) (d : EthMsgUpdate) (s : MergeResult),
      merge q w r d = Except.ok s →
      ∀ v ∈ newValidators r d,
        (w v).isSome = true ∧ v ∈ s.record.seen_by.val) := by
  refine ⟨?_, ?_, ?_, ?_⟩
  · intro r d
    constructor
    · intro h
      by_contra hb
      by_cases he : d.seen_by.val = []
      · rw [merge_empty hb he] at h
        cases Except.error.inj h
      · cases hsw : sumWeights w (newValidators r d) with
        | none =>
          rw [merge_unknown hb he hsw] at h
          cases Except.error.inj h
        | some p =>
          rw [merge_ok_intro hb he hsw] at h
          cases h
    · exact merge_mismatch
  · intro r d
    constructor
    · intro h
      by_cases hb : d.body = r.body
      · by_cases he : d.seen_by.val = []
        · exact ⟨hb, he⟩
        · cases hsw : sumWeights w (newValidators r d) with
          | none =>
            rw [merge_unknown hb he hsw] at h
            cases Except.error.inj h
          | some p =>
            rw [merge_ok_intro hb he hsw] at h
            cases h
      · rw [merge_mismatch hb] at h
        cases Except.error.inj h
    · rintro ⟨hb, he⟩
      exact merge_empty hb he
  · intro r d
    constructor
    · intro h
      by_cases hb : d.body = r.body
      · by_cases he : d.seen_by.val = []
        · rw [merge_empty hb he] at h
          cases Except.error.inj h
        · cases hsw : sumWeights w (newValidators r d) with
          | none =>
            exact ⟨hb, he, (sumWeights_eq_none_iff w _).mp hsw⟩
          | some p =>
            rw [merge_ok_intro hb he hsw] at h
            cases h
      · rw [merge_mismatch hb] at h
        cases Except.error.inj h
    · rintro ⟨hb, he, hv⟩
      exact merge_unknown hb he ((sumWeights_eq_none_iff w _).mpr hv)
  · intro r d s h v hv
    rcases merge_ok_elim h with ⟨hb, hne, p, hp, hs⟩
    subst hs
    constructor
    · cases hval : w v with
      | none =>
        exfalso
        have hn : sumWeights w (newValidators r d) = none :=
          (sumWeights_eq_none_iff w _).mpr ⟨v, hv, hval⟩
        rw [hn] at hp
        cases hp
      | some x => rfl
    · show v ∈ (mergedRecord q r d p).seen_by.val
      rw [mergedRecord_seen_by]
      exact (mem_insertAllS ltN _ _ v).mpr (Or.inl hv)

/-- C8: voting power is an exact rational (it is modelled as `ℚ`, and every
`FractionalVotingPower` weight lies in `[0, 1]` by construction), and for any
weight provider whose weights are fractions of a total (any set of distinct
validators sums to at most 1), the cumulative `voting_power` of every record
reachable from the initial state stays in the closed interval `[0, 1]`. -/
theorem claim_c8_power_exact_fraction_in_unit_interval (q : ℚ)
    (w : Address → Option FractionalVotingPower) (e : EthereumEvent) :
    (∀ p : FractionalVotingPower, 0 ≤ p.val ∧ p.val ≤ 1) ∧
    ((∀ S : Finset Address, ∑ v in S, wq w v ≤ 1) →
      ∀ (l : List EthMsgUpdate) (t : EthMsg),
        mergeList q w (initMsg e) l = Except.ok t →
        0 ≤ t.voting_power ∧ t.voting_power ≤ 1) := by
  refine ⟨fun p => p.prop, ?_⟩
  intro hW l t h
  rcases mergeList_init_char h with ⟨_, _, hvp, _, _⟩
  rw [hvp]
  exact ⟨Finset.sum_nonneg fun v _ => wq_nonneg w v, hW _⟩

/-- C9: converting a `MultiSignedEthEvent` into an `EthMsgUpdate` preserves
the event exactly and produces a `seen_by` set containing exactly the
(validator, height) pairs of the signers, with duplicates collapsed (the
result is duplicate-free) and no pair added or lost. -/
theorem claim_c9_from_multi_signed_exact (m : MultiSignedEthEvent) :
    (EthMsgUpdate.fromMultiSigned m).body = m.event ∧
    (∀ p : Address × BlockHeight,
      p ∈ (EthMsgUpdate.fromMultiSigned m).seen_by.val ↔ p ∈ m.signers) ∧
    (EthMsgUpdate.fromMultiSigned m).seen_by.val.Nodup := by
  refine ⟨rfl, ?_, ?_⟩
  · intro p
    show p ∈ insertAllS ltPair m.signers [] ↔ _
    rw [mem_insertAllS]
    simp
  · exact nodup_of_sortedLt strictCmp_ltPair
      (EthMsgUpdate.fromMultiSigned m).seen_by.prop

/-- Three-way comparison on naturals, mirroring `Ord` on the opaque
event/address/height scalars. -/
def cmpN (a b : ℕ) : Ordering :=
  if a < b then Ordering.lt else if a = b then Ordering.eq else Ordering.gt

/-- The derived tuple `Ord` on `(Address, BlockHeight)`. -/
def cmpPair (x y : Address × BlockHeight) : Ordering :=
  match cmpN x.1 y.1 with
  | Ordering.eq => cmpN x.2 y.2
  | o => o

/-- The derived `Ord` on `BTreeSet<(Address, BlockHeight)>`: lexicographic
over the sorted element sequences. -/
def cmpListPair :
    List (Address × BlockHeight) → List (Address × BlockHeight) → Ordering
  | [], [] => Ordering.eq
  | [], _ :: _ => Ordering.lt
  | _ :: _, [] => Ordering.gt
  | x :: xs, y :: ys =>
    match cmpPair x y with
    | Ordering.eq => cmpListPair xs ys
    | o => o

/-- The derived `Ord` on `EthMsgUpdate`: lexicographic on
(`body`, `seen_by`), in field order. -/
def cmpUpdate (a b : EthMsgUpdate) : Ordering :=
  match cmpN a.body b.body with
  | Ordering.eq => cmpListPair a.seen_by.val b.seen_by.val
  | o => o

/-- The derived structural hash on `EthMsgUpdate`: folds every field into
the accumulator. -/
def hashUpdate (u : EthMsgUpdate) : ℕ :=
  u.seen_by.val.foldl
    (fun h p => (h * 1000003 + p.1) * 1000003 + p.2) u.body

theorem cmpN_eq_iff (a b : ℕ) : cmpN a b = Ordering.eq ↔ a = b := by
  unfold cmpN
  split
  · constructor
    · intro h
      cases h
    · intro h
      omega
  · split
    · simp_all
    · constructor
      · intro h
        cases h
      · intro h
        omega

theorem cmpN_lt_iff (a b : ℕ) : cmpN a b = Ordering.lt ↔ a < b := by
  unfold cmpN
  split
  · simp_all
  · split
    · constructor
      · intro h
        cases h
      · intro h
        omega
    · constructor
      · intro h
        cases h
      · intro h
        omega

theorem cmpN_gt_iff (a b : ℕ) : cmpN a b = Ordering.gt ↔ b < a := by
  unfold cmpN
  split
  · constructor
    · intro h
      cases h
    · intro h
      omega
  · split
    · constructor
      · intro h
        cases h
      · intro h
        omega
    · constructor
      · intro _
        omega
      · intro _
        rfl

theorem cmpPair_eq_iff (x y : Address × BlockHeight) :
    cmpPair x y = Ordering.eq ↔ x = y := by
  unfold cmpPair
  cases h1 : cmpN x.1 y.1 with
  | lt =>
    rw [cmpN_lt_iff] at h1
    constructor
    · intro h
      cases h
    · rintro rfl
      omega
  | eq =>
    rw [cmpN_eq_iff] at h1
    rw [cmpN_eq_iff]
    constructor
    · intro h2
      exact Prod.ext h1 h2
    · rintro rfl
      rfl
  | gt =>
    rw [cmpN_gt_iff] at h1
    constructor
    · intro h
      cases h
    · rintro rfl
      omega

theorem cmpPair_mk_lt_iff (x1 x2 y1 y2 : ℕ) :
    cmpPair (x1, x2) (y1, y2) = Ordering.lt ↔
      x1 < y1 ∨ (x1 = y1 ∧ x2 < y2) := by
  show (match cmpN x1 y1 with
    | Ordering.eq => cmpN x2 y2
    | o => o) = Ordering.lt ↔ _
  cases h1 : cmpN x1 y1 with
  | lt =>
    rw [cmpN_lt_iff] at h1
    constructor
    · intro _
      exact Or.inl h1
    · intro _
      rfl
  | eq =>
    rw [cmpN_eq_iff] at h1
    rw [cmpN_lt_iff]
    constructor
    · intro h2
      exact Or.inr ⟨h1, h2⟩
    · rintro (h | ⟨_, h⟩)
      · omega
      · exact h
  | gt =>
    rw [cmpN_gt_iff] at h1
    constructor
    · intro h
      cases h
    · rintro (h | ⟨h, _⟩) <;> omega

theorem cmpPair_mk_gt_iff (x1 x2 y1 y2 : ℕ) :
    cmpPair (x1, x2) (y1, y2) = Ordering.gt ↔
      y1 < x1 ∨ (y1 = x1 ∧ y2 < x2) := by
  show (match cmpN x1 y1 with
    | Ordering.eq => cmpN x2 y2
    | o => o) = Ordering.gt ↔ _
  cases h1 : cmpN x1 y1 with
  | lt =>
    rw [cmpN_lt_iff] at h1
    constructor
    · intro h
      cases h
    · rintro (h | ⟨h, _⟩) <;> omega
  | eq =>
    rw [cmpN_eq_iff] at h1
    rw [cmpN_gt_iff]
    constructor
    · intro h2
      exact Or.inr ⟨h1.symm, h2⟩
    · rintro (h | ⟨_, h⟩)
      · omega
      · exact h
  | gt =>
    rw [cmpN_gt_iff] at h1
    constructor
    · intro _
      exact Or.inl h1
    · intro _
      rfl

theorem cmpPair_refl (x : Address × BlockHeight) :
    cmpPair x x = Ordering.eq :=
  (cmpPair_eq_iff x x).mpr rfl

theorem cmpN_flip (a b : ℕ) : cmpN b a = (cmpN a b).swap := by
  cases h : cmpN a b with
  | lt =>
    rw [cmpN_lt_iff] at h
    show cmpN b a = Ordering.gt
    rw [cmpN_gt_iff]
    exact h
  | eq =>
    rw [cmpN_eq_iff] at h
    subst h
    show cmpN a a = Ordering.eq
    rw [cmpN_eq_iff]
  | gt =>
    rw [cmpN_gt_iff] at h
    show cmpN b a = Ordering.lt
    rw [cmpN_lt_iff]
    exact h

theorem cmpN_trans_lt {a b c : ℕ} (h1 : cmpN a b = Ordering.lt)
    (h2 : cmpN b c = Ordering.lt) : cmpN a c = Ordering.lt := by
  rw [cmpN_lt_iff] at *
  omega

theorem cmpPair_flip (x y : Address × BlockHeight) :
    cmpPair y x = (cmpPair x y).swap := by
  obtain ⟨x1, x2⟩ := x
  obtain ⟨y1, y2⟩ := y
  cases h : cmpPair (x1, x2) (y1, y2) with
  | lt =>
    rw [cmpPair_mk_lt_iff] at h
    show cmpPair (y1, y2) (x1, x2) = Ordering.gt
    rw [cmpPair_mk_gt_iff]
    exact h
  | eq =>
    have h' := (cmpPair_eq_iff _ _).mp h
    rw [h']
    exact cmpPair_refl (y1, y2)
  | gt =>
    rw [cmpPair_mk_gt_iff] at h
    show cmpPair (y1, y2) (x1, x2) = Ordering.lt
    rw [cmpPair_mk_lt_iff]
    exact h

theorem cmpPair_trans_lt {x y z : Address × BlockHeight}
    (h1 : cmpPair x y = Ordering.lt) (h2 : cmpPair y z = Ordering.lt) :
    cmpPair x z = Ordering.lt := by
  obtain ⟨x1, x2⟩ := x
  obtain ⟨y1, y2⟩ := y
  obtain ⟨z1, z2⟩ := z
  rw [cmpPair_mk_lt_iff] at *
  omega

theorem cmpListPair_eq_iff :
    ∀ l1 l2 : List (Address × BlockHeight),
      cmpListPair l1 l2 = Ordering.eq ↔ l1 = l2 := by
  intro l1
  induction l1 with
  | nil =>
    intro l2
    cases l2 with
    | nil =>
      constructor
      · intro _
        rfl
      · intro _
        rfl
    | cons y ys =>
      constructor
      · intro h
        cases h
      · intro h
        cases h
  | cons x xs ih =>
    intro l2
    cases l2 with
    | nil =>
      constructor
      · intro h
        cases h
      · intro h
        cases h
    | cons y ys =>
      show (match cmpPair x y with
        | Ordering.eq => cmpListPair xs ys
        | o => o) = Ordering.eq ↔ _
      cases hp : cmpPair x y with
      | lt =>
        constructor
        · intro h
          cases h
        · intro h
          injection h with h1 h2
          rw [h1, cmpPair_refl] at hp
          cases hp
      | eq =>
        have hp' := (cmpPair_eq_iff _ _).mp hp
        subst hp'
        rw [ih ys]
        constructor
        · intro h
          rw [h]
        · intro h
          injection h
      | gt =>
        constructor
        · intro h
          cases h
        · intro h
          injection h with h1 h2
          rw [h1, cmpPair_refl] at hp
          cases hp

theorem cmpListPair_flip :
    ∀ l1 l2 : List (Address × BlockHeight),
      cmpListPair l2 l1 = (cmpListPair l1 l2).swap := by
  intro l1
  induction l1 with
  | nil =>
    intro l2
    cases l2 with
    | nil => rfl
    | cons y ys => rfl
  | cons x xs ih =>
    intro l2
    cases l2 with
    | nil => rfl
    | cons y ys =>
      show (match cmpPair y x with
        | Ordering.eq => cmpListPair ys xs
        | o => o) =
        (match cmpPair x y with
          | Ordering.eq => cmpListPair xs ys
          | o => o).swap
      rw [cmpPair_flip x y]
      cases cmpPair x y with
      | lt => rfl
      | eq => exact ih ys
      | gt => rfl

theorem cmpListPair_trans :
    ∀ (l1 : List (Address × BlockHeight))
      {l2 l3 : List (Address × BlockHeight)},
      cmpListPair l1 l2 = Ordering.lt →
      cmpListPair l2 l3 = Ordering.lt →
      cmpListPair l1 l3 = Ordering.lt := by
  intro l1
  induction l1 with
  | nil =>
    intro l2 l3 h1 h2
    cases l2 with
    | nil => cases h1
    | cons y ys =>
      cases l3 with
      | nil => cases h2
      | cons z zs => rfl
  | cons x xs ih =>
    intro l2 l3 h1 h2
    cases l2 with
    | nil => cases h1
    | cons y ys =>
      cases l3 with
      | nil => cases h2
      | cons z zs =>
        show (match cmpPair x z with
          | Ordering.eq => cmpListPair xs zs
          | o => o) = Ordering.lt
        have h1' : (match cmpPair x y with
          | Ordering.eq => cmpListPair xs ys
          | o => o) = Ordering.lt := h1
        have h2' : (match cmpPair y z with
          | Ordering.eq => cmpListPair ys zs
          | o => o) = Ordering.lt := h2
        cases hxy : cmpPair x y with
        | gt =>
          rw [hxy] at h1'
          cases h1'
        | eq =>
          rw [hxy] at h1'
          have hxy' := (cmpPair_eq_iff x y).mp hxy
          subst hxy'
          cases hxz : cmpPair x z with
          | lt => rfl
          | eq =>
            rw [hxz] at h2'
            exact ih h1' h2'
          | gt =>
            rw [hxz] at h2'
            cases h2'
        | lt =>
          cases hyz : cmpPair y z with
          | lt =>
            rw [cmpPair_trans_lt hxy hyz]
          | eq =>
            have hyz' := (cmpPair_eq_iff y z).mp hyz
            subst hyz'
            rw [hxy]
          | gt =>
            rw [hyz] at h2'
            cases h2'

theorem update_eq_iff (a b : EthMsgUpdate) :
    a = b ↔ a.body = b.body ∧ a.seen_by = b.seen_by := by
  constructor
  · rintro rfl
    exact ⟨rfl, rfl⟩
  · rintro ⟨h1, h2⟩
    cases a
    cases b
    simp_all

theorem cmpUpdate_eq_iff (a b : EthMsgUpdate) :
    cmpUpdate a b = Ordering.eq ↔ a = b := by
  unfold cmpUpdate
  cases h1 : cmpN a.body b.body with
  | lt =>
    constructor
    · intro h
      cases h
    · rintro rfl
      rw [cmpN_lt_iff] at h1
      omega
  | eq =>
    rw [cmpN_eq_iff] at h1
    rw [cmpListPair_eq_iff]
    constructor
    · intro h2
      exact (update_eq_iff a b).mpr ⟨h1, Subtype.ext h2⟩
    · rintro rfl
      rfl
  | gt =>
    constructor
    · intro h
      cases h
    · rintro rfl
      rw [cmpN_gt_iff] at h1
      omega

theorem cmpUpdate_flip (a b : EthMsgUpdate) :
    cmpUpdate b a = (cmpUpdate a b).swap := by
  unfold cmpUpdate
  rw [cmpN_flip a.body b.body, cmpListPair_flip a.seen_by.val b.seen_by.val]
  cases cmpN a.body b.body with
  | lt => rfl
  | eq => rfl
  | gt => rfl

theorem cmpUpdate_trans {a b c : EthMsgUpdate}
    (h1 : cmpUpdate a b = Ordering.lt)
    (h2 : cmpUpdate b c = Ordering.lt) :
    cmpUpdate a c = Ordering.lt := by
  have h1' : (match cmpN a.body b.body with
    | Ordering.eq => cmpListPair a.seen_by.val b.seen_by.val
    | o => o) = Ordering.lt := h1
  have h2' : (match cmpN b.body c.body with
    | Ordering.eq => cmpListPair b.seen_by.val c.seen_by.val
    | o => o) = Ordering.lt := h2
  show (match cmpN a.body c.body with
    | Ordering.eq => cmpListPair a.seen_by.val c.seen_by.val
    | o => o) = Ordering.lt
  cases hxy : cmpN a.body b.body with
  | gt =>
    rw [hxy] at h1'
    cases h1'
  | eq =>
    rw [hxy] at h1'
    rw [cmpN_eq_iff] at hxy
    rw [hxy]
    cases hxz : cmpN b.body c.body with
    | lt => rfl
    | eq =>
      rw [hxz] at h2'
      exact cmpListPair_trans _ h1' h2'
    | gt =>
      rw [hxz] at h2'
      cases h2'
  | lt =>
    cases hyz : cmpN b.body c.body with
    | lt =>
      rw [cmpN_trans_lt hxy hyz]
    | eq =>
      rw [cmpN_eq_iff] at hyz
      rw [← hyz, hxy]
    | gt =>
      rw [hyz] at h2'
      cases h2'

/-- C6: `EthMsgUpdate` has structural equality (two deltas are equal exactly
when both fields agree), a total order derived lexicographically from its
fields that is reflexive-on-equal, antisymmetric, transitive, total and
consistent with equality, and a structure-derived hash that agrees on equal
deltas, so identical deltas collapse in deduplicating containers. -/
theorem claim_c6_update_equality_order_hash :
    (∀ a b : EthMsgUpdate,
      a = b ↔ a.body = b.body ∧ a.seen_by = b.seen_by) ∧
    (∀ a : EthMsgUpdate, cmpUpdate a a = Ordering.eq) ∧
    (∀ a b : EthMsgUpdate, cmpUpdate a b = Ordering.eq ↔ a = b) ∧
    (∀ a b : EthMsgUpdate,
      cmpUpdate a b = Ordering.lt ↔ cmpUpdate b a = Ordering.gt) ∧
    (∀ a b c : EthMsgUpdate, cmpUpdate a b = Ordering.lt →
      cmpUpdate b c = Ordering.lt → cmpUpdate a c = Ordering.lt) ∧
    (∀ a b : EthMsgUpdate, cmpUpdate a b = Ordering.lt ∨
      cmpUpdate a b = Ordering.eq ∨ cmpUpdate a b = Ordering.gt) ∧
    (∀ a b : EthMsgUpdate, a = b → hashUpdate a = hashUpdate b) := by
  refine ⟨update_eq_iff, ?_, cmpUpdate_eq_iff, ?_, ?_, ?_, ?_⟩
  · intro a
    exact (cmpUpdate_eq_iff a a).mpr rfl
  · intro a b
    rw [cmpUpdate_flip a b]
    cases cmpUpdate a b with
    | lt =>
      constructor
      · intro _
        rfl
      · intro _
        rfl
    | eq =>
      constructor
      · intro h
        cases h
      · intro h
        cases h
    | gt =>
      constructor
      · intro h
        cases h
      · intro h
        cases h
  · intro a b c h1 h2
    exact cmpUpdate_trans h1 h2
  · intro a b
    cases cmpUpdate a b with
    | lt => exact Or.inl rfl
    | eq => exact Or.inr (Or.inl rfl)
    | gt => exact Or.inr (Or.inr rfl)
  · intro a b h
    rw [h]

/-- Borsh-style little-endian encoding of a `u64` scalar: 8 bytes. -/
def encNat8 (n : ℕ) : List ℕ :=
  [n % 256, n / 256 % 256, n / 65536 % 256, n / 16777216 % 256,
   n / 4294967296 % 256, n / 1099511627776 % 256,
   n / 281474976710656 % 256, n / 72057594037927936 % 256]

/-- Decode 8 little-endian bytes into a `u64` scalar. -/
def decNat8 : List ℕ → Option (ℕ × List ℕ)
  | b0 :: b1 :: b2 :: b3 :: b4 :: b5 :: b6 :: b7 :: rest =>
    some (b0 + 256 * b1 + 65536 * b2 + 16777216 * b3 + 4294967296 * b4 +
      1099511627776 * b5 + 281474976710656 * b6 +
      72057594037927936 * b7, rest)
  | _ => none

/-- Borsh-style little-endian encoding of a `u32` scalar: 4 bytes
(used for collection length prefixes). -/
def encNat4 (n : ℕ) : List ℕ :=
  [n % 256, n / 256 % 256, n / 65536 % 256, n / 16777216 % 256]

/-- Decode 4 little-endian bytes into a `u32` scalar. -/
def decNat4 : List ℕ → Option (ℕ × List ℕ)
  | b0 :: b1 :: b2 :: b3 :: rest =>
    some (b0 + 256 * b1 + 65536 * b2 + 16777216 * b3, rest)
  | _ => none

theorem decNat8_encNat8 (n : ℕ) (rest : List ℕ) :
    decNat8 (encNat8 n ++ rest) =
      some (n % 18446744073709551616, rest) := by
  show some _ = some _
  congr 1
  refine Prod.ext ?_ rfl
  show n % 256 + 256 * (n / 256 % 256) + 65536 * (n / 65536 % 256) +
      16777216 * (n / 16777216 % 256) +
      4294967296 * (n / 4294967296 % 256) +
      1099511627776 * (n / 1099511627776 % 256) +
      281474976710656 * (n / 281474976710656 % 256) +
      72057594037927936 * (n / 72057594037927936 % 256) =
      n % 18446744073709551616
  omega

theorem decNat4_encNat4 (n : ℕ) (rest : List ℕ) :
    decNat4 (encNat4 n ++ rest) = some (n % 4294967296, rest) := by
  show some _ = some _
  congr 1
  refine Prod.ext ?_ rfl
  show n % 256 + 256 * (n / 256 % 256) + 65536 * (n / 65536 % 256) +
      16777216 * (n / 16777216 % 256) = n % 4294967296
  omega

/-- Encode a sequence of (address, height) pairs, each as two `u64`s. -/
def encPairs : List (Address × BlockHeight) → List ℕ
  | [] => []
  | p :: t => encNat8 p.1 ++ (encNat8 p.2 ++ encPairs t)

/-- Decode `k` (address, height) pairs. -/
def decPairs : ℕ → List ℕ → Option (List (Address × BlockHeight) × List ℕ)
  | 0, bs => some ([], bs)
  | k + 1, bs =>
    match decNat8 bs with
    | none => none
    | some (a, bs1) =>
      match decNat8 bs1 with
      | none => none
      | some (hh, bs2) =>
        match decPairs k bs2 with
        | none => none
        | some (l, bs3) => some ((a, hh) :: l, bs3)

theorem decPairs_encPairs :
    ∀ (l : List (Address × BlockHeight)) (rest : List ℕ),
      (∀ p ∈ l, p.1 < 18446744073709551616 ∧
        p.2 < 18446744073709551616) →
      decPairs l.length (encPairs l ++ rest) = some (l, rest) := by
  intro l
  induction l with
  | nil =>
    intro rest _
    rfl
  | cons p t ih =>
    intro rest hall
    have hp := hall p (List.mem_cons_self p t)
    have ht := ih rest (fun x hx => hall x (List.mem_cons.mpr (Or.inr hx)))
    simp only [encPairs, List.length_cons, List.append_assoc, decPairs,
      decNat8_encNat8, Nat.mod_eq_of_lt hp.1, Nat.mod_eq_of_lt hp.2, ht]

/-- Encode a sequence of addresses, each as a `u64`. -/
def encAddrs : List Address → List ℕ
  | [] => []
  | a :: t => encNat8 a ++ encAddrs t

/-- Decode `k` addresses. -/
def decAddrs : ℕ → List ℕ → Option (List Address × List ℕ)
  | 0, bs => some ([], bs)
  | k + 1, bs =>
    match decNat8 bs with
    | none => none
    | some (a, bs1) =>
      match decAddrs k bs1 with
      | none => none
      | some (l, bs2) => some (a :: l, bs2)

theorem decAddrs_encAddrs :
    ∀ (l : List Address) (rest : List ℕ),
      (∀ a ∈ l, a < 18446744073709551616) →
      decAddrs l.length (encAddrs l ++ rest) = some (l, rest) := by
  intro l
  induction l with
  | nil =>
    intro rest _
    rfl
  | cons a t ih =>
    intro rest hall
    have ha := hall a (List.mem_cons_self a t)
    have ht := ih rest (fun x hx => hall x (List.mem_cons.mpr (Or.inr hx)))
    simp only [encAddrs, List.length_cons, List.append_assoc, decAddrs,
      decNat8_encNat8, Nat.mod_eq_of_lt ha, ht]

/-- Borsh encoding of a `bool`: one byte, `0` or `1`. -/
def encBool (b : Bool) : List ℕ := [if b then 1 else 0]

/-- Decode a `bool` byte, rejecting anything but `0` and `1`. -/
def decBool : List ℕ → Option (Bool × List ℕ)
  | 0 :: rest => some (false, rest)
  | 1 :: rest => some (true, rest)
  | _ => none

theorem decBool_encBool (b : Bool) (rest : List ℕ) :
    decBool (encBool b ++ rest) = some (b, rest) := by
  cases b <;> rfl

/-- Encoding of the exact fraction: numerator and denominator as `u64`s
(the `Ratio<u64>` layout of `FractionalVotingPower`). -/
def encRat (x : ℚ) : List ℕ := encNat8 x.num.toNat ++ encNat8 x.den

/-- Decode an exact fraction from numerator and denominator. -/
def decRat (bs : List ℕ) : Option (ℚ × List ℕ) :=
  match decNat8 bs with
  | none => none
  | some (n, bs1) =>
    match decNat8 bs1 with
    | none => none
    | some (d, bs2) => some ((n : ℚ) / (d : ℚ), bs2)

theorem decRat_encRat (x : ℚ) (rest : List ℕ) (hx : 0 ≤ x)
    (hn : x.num.toNat < 18446744073709551616)
    (hd : x.den < 18446744073709551616) :
    decRat (encRat x ++ rest) = some (x, rest) := by
  simp only [encRat, decRat, List.append_assoc, decNat8_encNat8,
    Nat.mod_eq_of_lt hn, Nat.mod_eq_of_lt hd]
  have h1 : ((x.num.toNat : ℕ) : ℚ) = (x.num : ℚ) := by
    have h2 := Int.toNat_of_nonneg (Rat.num_nonneg.mpr hx)
    exact_mod_cast congrArg (fun z : ℤ => (z : ℚ)) h2
  rw [h1, Rat.num_div_den]

/-- Borsh-style serialization of `EthMsgUpdate` (derived
`BorshSerialize`): fields in declaration order; the `seen_by` set as a u32
length prefix followed by its elements in the canonical sorted order the set
maintains. -/
def serializeUpdate (u : EthMsgUpdate) : List ℕ :=
  encNat8 u.body ++ (encNat4 u.seen_by.val.length ++ encPairs u.seen_by.val)

/-- Borsh-style deserialization of `EthMsgUpdate` (derived
`BorshDeserialize`): reads the fields in order and collects the set
elements, requiring the input to be fully consumed. -/
def deserializeUpdate (bs : List ℕ) : Option EthMsgUpdate :=
  match decNat8 bs with
  | none => none
  | some (b, bs1) =>
    match decNat4 bs1 with
    | none => none
    | some (len, bs2) =>
      match decPairs len bs2 with
      | none => none
      | some (l, bs3) =>
        match bs3 with
        | [] =>
          some { body := b,
                 seen_by :=
                   ⟨insertAllS ltPair l [],
                     sortedLt_insertAllS strictCmp_ltPair l
                       (sortedLt_nil ltPair)⟩ }
        | _ :: _ => none

/-- Borsh-style serialization of `EthMsg` (derived `BorshSerialize`):
fields in declaration order. -/
def serializeMsg (m : EthMsg) : List ℕ :=
  encNat8 m.body ++ (encRat m.voting_power ++
    (encNat4 m.seen_by.val.length ++
      (encAddrs m.seen_by.val ++ encBool m.seen)))

/-- Borsh-style deserialization of `EthMsg` (derived `BorshDeserialize`). -/
def deserializeMsg (bs : List ℕ) : Option EthMsg :=
  match decNat8 bs with
  | none => none
  | some (b, bs1) =>
    match decRat bs1 with
    | none => none
    | some (vp, bs2) =>
      match decNat4 bs2 with
      | none => none
      | some (len, bs3) =>
        match decAddrs len bs3 with
        | none => none
        | some (l, bs4) =>
          match decBool bs4 with
          | none => none
          | some (sn, bs5) =>
            match bs5 with
            | [] =>
              some { body := b
                     voting_power := vp
                     seen_by :=
                       ⟨insertAllS ltN l [],
                         sortedLt_insertAllS strictCmp_ltN l
                           (sortedLt_nil ltN)⟩
                     seen := sn }
            | _ :: _ => none

/-- C7: serialization of both `EthMsgUpdate` and `EthMsg` is deterministic
with a fixed field order, and sets are encoded through their canonical
sorted-list form; hence any two values that agree semantically (same fields,
same *membership* of their sets) produce byte-identical encodings, so
independent nodes computing the same merges persist byte-identical
records. -/
theorem claim_c7_serialization_deterministic :
    (∀ u v : EthMsgUpdate, u.body = v.body →
      (∀ p, p ∈ u.seen_by.val ↔ p ∈ v.seen_by.val) →
      serializeUpdate u = serializeUpdate v) ∧
    (∀ m n : EthMsg, m.body = n.body →
      m.voting_power = n.voting_power →
      (∀ a, a ∈ m.seen_by.val ↔ a ∈ n.seen_by.val) →
      m.seen = n.seen → serializeMsg m = serializeMsg n) ∧
    (∀ u : EthMsgUpdate, SortedLt ltPair u.seen_by.val) ∧
    (∀ m : EthMsg, SortedLt ltN m.seen_by.val) := by
  refine ⟨?_, ?_, fun u => u.seen_by.prop, fun m => m.seen_by.prop⟩
  · intro u v hb hmem
    have hval : u.seen_by.val = v.seen_by.val :=
      sortedLt_ext strictCmp_ltPair u.seen_by.prop v.seen_by.prop hmem
    have huv : u = v :=
      (update_eq_iff u v).mpr ⟨hb, Subtype.ext hval⟩
    rw [huv]
  · intro m n hb hvp hmem hseen
    have hval : m.seen_by.val = n.seen_by.val :=
      sortedLt_ext strictCmp_ltN m.seen_by.prop n.seen_by.prop hmem
    have hmn : m = n := EthMsg.ext4 hb hvp (Subtype.ext hval) hseen
    rw [hmn]

/-- C10: deserialization is a left inverse of serialization for both public
types, for every value within the numeric ranges of the Rust field types
(`u64` scalars, `u32` collection lengths, a non-negative `Ratio<u64>`
voting power): decoding the encoding succeeds, consumes all input, and
returns the original value. -/
theorem claim_c10_serialization_roundtrip :
    (∀ u : EthMsgUpdate, u.body < 18446744073709551616 →
      u.seen_by.val.length < 4294967296 →
      (∀ p ∈ u.seen_by.val, p.1 < 18446744073709551616 ∧
        p.2 < 18446744073709551616) →
      deserializeUpdate (serializeUpdate u) = some u) ∧
    (∀ m : EthMsg, m.body < 18446744073709551616 →
      0 ≤ m.voting_power →
      m.voting_power.num.toNat < 18446744073709551616 →
      m.voting_power.den < 18446744073709551616 →
      m.seen_by.val.length < 4294967296 →
      (∀ a ∈ m.seen_by.val, a < 18446744073709551616) →
      deserializeMsg (serializeMsg m) = some m) := by
  constructor
  · intro u hb hlen hel
    have hdp : decPairs u.seen_by.val.length (encPairs u.seen_by.val) =
        some (u.seen_by.val, []) := by
      have hr := decPairs_encPairs u.seen_by.val [] hel
      rwa [List.append_nil] at hr
    simp only [serializeUpdate, deserializeUpdate, decNat8_encNat8,
      Nat.mod_eq_of_lt hb, decNat4_encNat4, Nat.mod_eq_of_lt hlen, hdp,
      insertAllS_self strictCmp_ltPair u.seen_by.prop]
  · intro m hb hvpn hnum hden hlen hel
    have hda : decAddrs m.seen_by.val.length
        (encAddrs m.seen_by.val ++ encBool m.seen) =
        some (m.seen_by.val, encBool m.seen) :=
      decAddrs_encAddrs m.seen_by.val (encBool m.seen) hel
    have hbo : decBool (encBool m.seen ++ []) = some (m.seen, []) :=
      decBool_encBool m.seen []
    rw [List.append_nil] at hbo
    have hrat : decRat (encRat m.voting_power ++
        (encNat4 m.seen_by.val.length ++
          (encAddrs m.seen_by.val ++ encBool m.seen))) =
        some (m.voting_power,
          encNat4 m.seen_by.val.length ++
            (encAddrs m.seen_by.val ++ encBool m.seen)) :=
      decRat_encRat m.voting_power _ hvpn hnum hden
    simp only [serializeMsg, deserializeMsg, decNat8_encNat8,
      Nat.mod_eq_of_lt hb, hrat, decNat4_encNat4, Nat.mod_eq_of_lt hlen,
      hda, hbo, insertAllS_self strictCmp_ltN m.seen_by.prop]

/-- Concrete weight provider for witnesses: validators 1, 2, 3 hold 2/5,
3/10 and 3/10 of the power; everyone else is unknown. -/
def wWit : Address → Option FractionalVotingPower
  | 1 => some ⟨(2 : ℚ)/5, by norm_num⟩
  | 2 => some ⟨(3 : ℚ)/10, by norm_num⟩
  | 3 => some ⟨(3 : ℚ)/10, by norm_num⟩
  | _ => none

/-- Weight provider assigning every validator zero power. -/
def wZero : Address → Option FractionalVotingPower :=
  fun _ => some ⟨0, by norm_num⟩

def dWit1 : EthMsgUpdate := ⟨7, ⟨[(1, 100)], by simp [SortedLt]⟩⟩

def dWit2 : EthMsgUpdate := ⟨7, ⟨[(2, 100)], by simp [SortedLt]⟩⟩

def dWit3 : EthMsgUpdate := ⟨7, ⟨[(3, 100)], by simp [SortedLt]⟩⟩

def dWit8 : EthMsgUpdate := ⟨8, ⟨[(1, 100)], by simp [SortedLt]⟩⟩

def rWit12 : EthMsg := ⟨7, 7/10, ⟨[1, 2], by simp [SortedLt, ltN]⟩, true⟩

def rWit3 : EthMsg := ⟨7, 3/10, ⟨[3], by simp [SortedLt]⟩, false⟩

def rZero3 : EthMsg := ⟨7, 0, ⟨[3], by simp [SortedLt]⟩, false⟩

def mWitDup : MultiSignedEthEvent := ⟨7, [(1, 100), (1, 100)]⟩

theorem claim_c1_witness :
    (∀ d, d ∈ [dWit1, dWit2] ↔ d ∈ [dWit2, dWit1]) ∧
    mergeList (2/3) wWit (initMsg 7) [dWit1, dWit2] = Except.ok rWit12 ∧
    mergeList (2/3) wWit (initMsg 7) [dWit2, dWit1] = Except.ok rWit12 ∧
    rWit12 = rWit12 := by
  have hm : ∀ d, d ∈ [dWit1, dWit2] ↔ d ∈ [dWit2, dWit1] := by
    intro d
    simp only [List.mem_cons, List.not_mem_nil, or_false]
    tauto
  have h1 : mergeList (2/3) wWit (initMsg 7) [dWit1, dWit2] =
      Except.ok rWit12 := by
    norm_num [mergeList, merge, newValidators, insertAllS, insertS,
      sumWeights, wWit, dWit1, dWit2, initMsg, rWit12, wq, ltN]
  have h2 : mergeList (2/3) wWit (initMsg 7) [dWit2, dWit1] =
      Except.ok rWit12 := by
    norm_num [mergeList, merge, newValidators, insertAllS, insertS,
      sumWeights, wWit, dWit1, dWit2, initMsg, rWit12, wq, ltN]
  exact ⟨hm, h1, h2,
    (claim_c1_merge_comm_idem_deterministic (2/3) wWit).2.2 (initMsg 7)
      [dWit1, dWit2] [dWit2, dWit1] rWit12 rWit12 hm h1 h2 ▸ rfl⟩

theorem claim_c2_witness :
    (0 : ℚ) < 2/3 ∧
    mergeList (2/3) wWit (initMsg 7) [dWit3] = Except.ok rWit3 ∧
    (rWit3.seen = true ↔ (2/3 : ℚ) ≤ rWit3.voting_power) := by
  have hq : (0 : ℚ) < 2/3 := by norm_num
  have h1 : mergeList (2/3) wWit (initMsg 7) [dWit3] = Except.ok rWit3 := by
    norm_num [mergeList, merge, newValidators, insertAllS, insertS,
      sumWeights, wWit, dWit3, initMsg, rWit3, wq, ltN]
  exact ⟨hq, h1,
    (claim_c2_seen_latch_threshold (2/3) wWit 7).2 hq [dWit3] rWit3 h1⟩

theorem claim_c3_witness :
    mergeList (2/3) wWit (initMsg 7) [dWit3] = Except.ok rWit3 ∧
    (rWit3.voting_power = ∑ v in attestersAll [dWit3], wq wWit v ∧
      (∀ v, v ∈ rWit3.seen_by.val ↔
        ∃ d ∈ [dWit3], ∃ hh, (v, hh) ∈ d.seen_by.val) ∧
      rWit3.seen_by.val.Nodup) := by
  have h1 : mergeList (2/3) wWit (initMsg 7) [dWit3] = Except.ok rWit3 := by
    norm_num [mergeList, merge, newValidators, insertAllS, insertS,
      sumWeights, wWit, dWit3, initMsg, rWit3, wq, ltN]
  exact ⟨h1, claim_c3_exactly_once_counting (2/3) wWit 7 [dWit3] rWit3 h1⟩

theorem claim_c4_witness :
    merge (2/3) wWit (initMsg 7) dWit3 = Except.ok ⟨rWit3, 3/10⟩ ∧
    ((initMsg 7).voting_power ≤ rWit3.voting_power ∧
      (initMsg 7).seen_by.val.length ≤ rWit3.seen_by.val.length) := by
  have h1 : merge (2/3) wWit (initMsg 7) dWit3 = Except.ok ⟨rWit3, 3/10⟩ := by
    norm_num [merge, newValidators, insertAllS, insertS, sumWeights,
      wWit, dWit3, initMsg, rWit3, wq, ltN]
  exact ⟨h1, (claim_c4_monotonicity (2/3) wWit).1 (initMsg 7) dWit3
    ⟨rWit3, 3/10⟩ h1⟩

theorem claim_c5_witness :
    dWit8.body ≠ (initMsg 7).body ∧
    merge (2/3) wWit (initMsg 7) dWit8 =
      Except.error MergeError.EventMismatch := by
  have hne : dWit8.body ≠ (initMsg 7).body := by
    norm_num [dWit8, initMsg]
  exact ⟨hne,
    ((claim_c5_all_or_nothing (2/3) wWit).1 (initMsg 7) dWit8).mpr hne⟩

theorem claim_c6_witness :
    cmpUpdate dWit1 dWit2 = Ordering.lt ∧
    cmpUpdate dWit2 dWit3 = Ordering.lt ∧
    cmpUpdate dWit1 dWit3 = Ordering.lt := by
  have h1 : cmpUpdate dWit1 dWit2 = Ordering.lt := by decide
  have h2 : cmpUpdate dWit2 dWit3 = Ordering.lt := by decide
  exact ⟨h1, h2,
    claim_c6_update_equality_order_hash.2.2.2.2.1 dWit1 dWit2 dWit3 h1 h2⟩

theorem claim_c7_witness :
    dWit1.body = (EthMsgUpdate.fromMultiSigned mWitDup).body ∧
    (∀ p, p ∈ dWit1.seen_by.val ↔
      p ∈ (EthMsgUpdate.fromMultiSigned mWitDup).seen_by.val) ∧
    serializeUpdate dWit1 =
      serializeUpdate (EthMsgUpdate.fromMultiSigned mWitDup) := by
  have hval : (EthMsgUpdate.fromMultiSigned mWitDup).seen_by.val =
      [(1, 100)] := by rfl
  have hb : dWit1.body = (EthMsgUpdate.fromMultiSigned mWitDup).body := rfl
  have hmem : ∀ p, p ∈ dWit1.seen_by.val ↔
      p ∈ (EthMsgUpdate.fromMultiSigned mWitDup).seen_by.val := by
    intro p
    rw [hval]
    exact Iff.rfl
  exact ⟨hb, hmem,
    claim_c7_serialization_deterministic.1 dWit1
      (EthMsgUpdate.fromMultiSigned mWitDup) hb hmem⟩

theorem claim_c8_witness :
    (∀ S : Finset Address, ∑ v in S, wq wZero v ≤ 1) ∧
    mergeList (2/3) wZero (initMsg 7) [dWit3] = Except.ok rZero3 ∧
    (0 ≤ rZero3.voting_power ∧ rZero3.voting_power ≤ 1) := by
  have hW : ∀ S : Finset Address, ∑ v in S, wq wZero v ≤ 1 := by
    intro S
    have h0 : ∀ v ∈ S, wq wZero v = 0 := by
      intro v _
      rfl
    rw [Finset.sum_congr rfl h0, Finset.sum_const_zero]
    norm_num
  have h1 : mergeList (2/3) wZero (initMsg 7) [dWit3] =
      Except.ok rZero3 := by
    norm_num [mergeList, merge, newValidators, insertAllS, insertS,
      sumWeights, wZero, dWit3, initMsg, rZero3, wq, ltN]
  exact ⟨hW, h1,
    (claim_c8_power_exact_fraction_in_unit_interval (2/3) wZero 7).2 hW
      [dWit3] rZero3 h1⟩

theorem claim_c10_witness :
    deserializeUpdate (serializeUpdate dWit1) = some dWit1 ∧
    deserializeMsg (serializeMsg rZero3) = some rZero3 := by
  constructor
  · exact claim_c10_serialization_roundtrip.1 dWit1 (by decide) (by decide)
      (by decide)
  · exact claim_c10_serialization_roundtrip.2 rZero3 (by decide)
      (le_refl 0) (by decide) (by decide) (by decide) (by decide)
